import Mathlib

/-!
# Verification of the voxagent ordered audio re-sequencing buffer

A shallow embedding of `src/voice/client.py`: the `OpusBufferedAudio`
jitter buffer / resequencer and the `VoiceRecvClient` session lifecycle,
together with proofs of the specified properties.

Modelling conventions:
* byte strings are `List Nat`;
* wall-clock timestamps are `Int` (they are opaque to all buffering
  decisions; the pacing sleep they feed is modelled in the lock-trace
  section, not in the state machine);
* the external ffmpeg transcode stage is an oracle: each drain cycle is
  given the outcome of its `process.stdin.write` (success or exception),
  and `read` is given the outcome of `process.stdout.read(frame_size)`;
* the mutex-protected critical sections execute atomically with respect
  to each other, so an execution is an interleaving of `add_audio` calls
  and drain-loop cycles, modelled as a list of events.
-/

/-- `AudioPacket` from `src/voice/client.py`: container for audio data
with sequence information. -/
structure AudioPacket where
  data : List Nat
  sequence : Nat
  timestamp : Int
deriving DecidableEq, Repr

/-- The mutable state of `OpusBufferedAudio`: the sequence counters, the
bounded `deque` buffer (held as a list, oldest-appended first), and the
drain-thread `running` flag.  `max_frames` is the `deque` `maxlen`. -/
structure OpusBufferedAudio where
  next_sequence : Nat
  last_read_sequence : Int
  last_timestamp : Int
  max_frames : Nat
  buffer : List AudioPacket
  running : Bool
deriving DecidableEq, Repr

/-- `frame_duration` of 20 ms, expressed in milliseconds. -/
def frame_duration_ms : Nat := 20

/-- `sample_rate = 48000`. -/
def sample_rate : Nat := 48000

/-- `channels = 2`. -/
def channels : Nat := 2

/-- `bytes_per_sample = 2`. -/
def bytes_per_sample : Nat := 2

/-- `frame_size = int(sample_rate * frame_duration * bytes_per_sample *
channels)`, computed here over exact rationals (the float computation in
the source truncates to the same value). -/
def frame_size : Nat := sample_rate * frame_duration_ms * bytes_per_sample * channels / 1000

/-- `max_frames = int(buffer_size / (frame_duration * 1000))` where
`buffer_size = int(buffer_duration * 1000)`: the buffer capacity in
packets for a buffer duration given in milliseconds. -/
def max_frames_of (buffer_duration_ms : Nat) : Nat := buffer_duration_ms / frame_duration_ms

/-- The state built by `OpusBufferedAudio.__init__`: `next_sequence = 0`,
`last_read_sequence = -1`, `last_timestamp = 0.0`, empty buffer,
`running = True`. -/
def initState (m : Nat) : OpusBufferedAudio :=
  { next_sequence := 0
    last_read_sequence := -1
    last_timestamp := 0
    max_frames := m
    buffer := []
    running := true }

/-- Appending to a `collections.deque` with `maxlen`: the element is
appended on the right and, if the length now exceeds `maxlen`, elements
are discarded from the left down to `maxlen`. -/
def dequeAppend (maxlen : Nat) (l : List AudioPacket) (p : AudioPacket) : List AudioPacket :=
  let l2 := l ++ [p]
  if maxlen < l2.length then l2.drop (l2.length - maxlen) else l2

/-- `OpusBufferedAudio.add_audio`: under the lock, build an
`AudioPacket` carrying the current `next_sequence` and the ingestion
timestamp, increment `next_sequence`, and append the packet to the
bounded buffer. -/
def add_audio (s : OpusBufferedAudio) (pcm_data : List Nat) (now : Int) : OpusBufferedAudio :=
  { s with
    next_sequence := s.next_sequence + 1
    buffer := dequeAppend s.max_frames s.buffer { data := pcm_data, sequence := s.next_sequence, timestamp := now } }

/-- `sorted(self.buffer, key=lambda x: x.sequence)`.  Python's `sorted`
is a stable ascending sort; a stable sort is extensionally unique, so it
is embedded as a stable insertion sort on the sequence key. -/
def sortBuf (l : List AudioPacket) : List AudioPacket :=
  l.insertionSort (fun a b => a.sequence ≤ b.sequence)

/-- The scan of `_process_buffer`: walk the buffer in sequence order and
return the first packet whose sequence equals `last_read_sequence + 1`,
if any. -/
def findNext (s : OpusBufferedAudio) : Option AudioPacket :=
  (sortBuf s.buffer).find? (fun p => (p.sequence : Int) == s.last_read_sequence + 1)

/-- One iteration of the `while self.running` body of
`OpusBufferedAudio._process_buffer`, with the outcome of the
`process.stdin.write` call supplied as the oracle `writeOk`.  If the
next-in-sequence packet is found it is removed from the buffer
(`self.buffer.remove(packet)` happens during the scan, before the
write); on a successful write `last_read_sequence` and `last_timestamp`
advance and the packet counts as emitted; on a failed write the
exception is caught, ffmpeg is restarted, and the cursor does not move.
Returns the new state and the emitted packet, if any. -/
def process_buffer_cycle (s : OpusBufferedAudio) (writeOk : Bool) (now : Int) :
    OpusBufferedAudio × Option AudioPacket :=
  if s.running then
    match findNext s with
    | none => (s, none)
    | some p =>
      let s1 := { s with buffer := s.buffer.erase p }
      if writeOk then
        ({ s1 with last_read_sequence := (p.sequence : Int), last_timestamp := now }, some p)
      else
        (s1, none)
  else (s, none)

/-- The state effect of `OpusBufferedAudio.cleanup` on the buffer object:
`self.running = False` (thread join and process termination are external
actions, modelled in the teardown-trace section). -/
def cleanup (s : OpusBufferedAudio) : OpusBufferedAudio :=
  { s with running := false }

/-- An event of an execution: an `add_audio` call on the network thread,
one drain-loop cycle (with its write outcome), or the `cleanup` flag
flip.  The critical sections are serialised by `self.lock`, so an
execution is a list of events. -/
inductive BufEvent where
  | add (pcm_data : List Nat) (now : Int)
  | cycle (writeOk : Bool) (now : Int)
  | stop
deriving DecidableEq, Repr

/-- Apply one event, returning the new state and the packet emitted to
the transcode stage, if any. -/
def stepEvent (s : OpusBufferedAudio) : BufEvent → OpusBufferedAudio × Option AudioPacket
  | .add pcm now => (add_audio s pcm now, none)
  | .cycle writeOk now => process_buffer_cycle s writeOk now
  | .stop => (cleanup s, none)

/-- Run a list of events, collecting the emitted packets in order. -/
def runEvents (s : OpusBufferedAudio) : List BufEvent → OpusBufferedAudio × List AudioPacket
  | [] => (s, [])
  | e :: es =>
    let r := stepEvent s e
    let rest := runEvents r.1 es
    (rest.1, r.2.toList ++ rest.2)

/-- The number of `add_audio` calls in an event list. -/
def countAdds : List BufEvent → Nat
  | [] => 0
  | .add _ _ :: es => countAdds es + 1
  | _ :: es => countAdds es

/-- The sequence numbers assigned by the successive `add_audio` calls of
an event list, in call order. -/
def assignedSeqs (s : OpusBufferedAudio) : List BufEvent → List Nat
  | [] => []
  | .add pcm now :: es => s.next_sequence :: assignedSeqs (add_audio s pcm now) es
  | e :: es => assignedSeqs (stepEvent s e).1 es

/-- The state invariant maintained by the buffer: buffered sequence
numbers appear in strictly increasing order (append order = assignment
order), every buffered sequence number is below `next_sequence`, and the
emission cursor is below `next_sequence`. -/
def BufInv (s : OpusBufferedAudio) : Prop :=
  (s.buffer.map (fun p => p.sequence)).Sorted (· < ·) ∧
  (∀ p ∈ s.buffer, p.sequence < s.next_sequence) ∧
  s.last_read_sequence < (s.next_sequence : Int)

instance (s : OpusBufferedAudio) : Decidable (BufInv s) := by
  unfold BufInv List.Sorted
  infer_instance

/-- A permanently stalled state: the packet the drain loop is waiting
for (`last_read_sequence + 1`) has already been assigned to some past
`add_audio` call but is no longer in the buffer. -/
def StalledState (s : OpusBufferedAudio) : Prop :=
  s.last_read_sequence + 1 < (s.next_sequence : Int) ∧
  ∀ p ∈ s.buffer, (p.sequence : Int) ≠ s.last_read_sequence + 1

instance (s : OpusBufferedAudio) : Decidable (StalledState s) := by
  unfold StalledState
  infer_instance

/-- The timestamp-erased view of a packet: its payload and sequence
number. -/
def packetView (p : AudioPacket) : List Nat × Nat := (p.data, p.sequence)

/-- The timestamp-erased view of a buffer state. -/
def stateView (s : OpusBufferedAudio) : Nat × Int × Nat × Bool × List (List Nat × Nat) :=
  (s.next_sequence, s.last_read_sequence, s.max_frames, s.running, s.buffer.map packetView)

/-- The timestamp-erased view of an event. -/
inductive BufEventView where
  | add (pcm_data : List Nat)
  | cycle (writeOk : Bool)
  | stop
deriving DecidableEq, Repr

/-- Erase the wall-clock values from an event. -/
def eventView : BufEvent → BufEventView
  | .add pcm _ => .add pcm
  | .cycle w _ => .cycle w
  | .stop => .stop

/-- `bytes.ljust(n, b'\x00')`: pad on the right with zero bytes up to
length `n` (a longer input is returned unchanged). -/
def ljust (l : List Nat) (n : Nat) : List Nat :=
  l ++ List.replicate (n - l.length) 0

/-- `OpusBufferedAudio.read`, with the outcome of
`process.stdout.read(frame_size)` supplied as the oracle: `Except.error`
when the read raised, `Except.ok data` otherwise.  An empty result
yields a frame of silence, a short result is padded with zero bytes, and
an exception is caught and converted to a frame of silence. -/
def OpusBufferedAudio.read (stdout_result : Except Unit (List Nat)) : List Nat :=
  match stdout_result with
  | .error _ => List.replicate frame_size 0
  | .ok data =>
    if data.length = 0 then List.replicate frame_size 0
    else if data.length ≠ frame_size then ljust data frame_size
    else data

/-- The primitive actions performed by the two buffer-mutating code
paths, for reasoning about the extent of the critical sections. -/
inductive LockAction where
  | acquire
  | release
  | scanSelect
  | removePacket
  | paceSleep
  | writeTranscode
  | flushTranscode
  | advanceCursor
  | idleSleep
  | makePacket
  | logStats
  | appendEvict
deriving DecidableEq, Repr

/-- The action trace of one `_process_buffer` cycle on its main path
(packet found, write succeeds): the `with self.lock:` block spans the
scan, the removal, the pacing sleep, the ffmpeg write and flush, and the
cursor advance; the 1 ms idle sleep follows outside the lock. -/
def process_buffer_cycle_actions : List LockAction :=
  [.acquire, .scanSelect, .removePacket, .paceSleep, .writeTranscode,
   .flushTranscode, .advanceCursor, .release, .idleSleep]

/-- The action trace of one `add_audio` call: the `with self.lock:`
block spans packet creation, the periodic stats log, and the bounded
append. -/
def add_audio_actions : List LockAction :=
  [.acquire, .makePacket, .logStats, .appendEvict, .release]

/-- Annotate each action of a trace with whether the mutex is held when
it runs, given the holding state on entry. -/
def lockHeld : List LockAction → Bool → List (LockAction × Bool)
  | [], _ => []
  | .acquire :: rest, h => (.acquire, h) :: lockHeld rest true
  | .release :: rest, h => (.release, h) :: lockHeld rest false
  | a :: rest, h => (a, h) :: lockHeld rest h

/-- The actions of a trace that execute inside the critical section
(the lock is held when they run, the unlock operation excluded). -/
def heldActions (tr : List LockAction) : List LockAction :=
  ((lockHeld tr false).filter (fun ab => ab.2 && !(ab.1 == LockAction.release))).map (fun ab => ab.1)

/-- Whether an action blocks (sleeps or performs transcode-stage
I/O). -/
def blockingAction : LockAction → Bool
  | .paceSleep => true
  | .idleSleep => true
  | .writeTranscode => true
  | .flushTranscode => true
  | _ => false

/-- The state of a `VoiceRecvClient` session relevant to the lifecycle
claims: connection status, whether `_sink` is set, the owned
`audio_source` buffer, and whether playback is active. -/
structure VoiceRecvClient where
  connected : Bool
  sink : Bool
  audio_source : Option OpusBufferedAudio
  playing : Bool
deriving DecidableEq, Repr

/-- `VoiceRecvClient.is_receiving`: `self._sink is not None and
self.is_connected()`. -/
def is_receiving (c : VoiceRecvClient) : Bool :=
  c.sink && c.connected

/-- `VoiceRecvClient.wait_for_connection`: poll `is_connected` once per
0.1 s tick until it reports `true` or the timeout expires.  `connAt n`
is the connection status at the `n`-th poll and `fuel` the number of
polls the 5 s timeout allows. -/
def wait_for_connection : (Nat → Bool) → Nat → Bool
  | _, 0 => false
  | connAt, fuel + 1 =>
    if connAt 0 then true else wait_for_connection (fun n => connAt (n + 1)) fuel

/-- The result of `start_receiving`: the new session state and whether
the call raised. -/
structure StartResult where
  state : VoiceRecvClient
  raised : Bool
deriving DecidableEq, Repr

/-- `VoiceRecvClient.start_receiving`: if a sink already exists, do
nothing.  Otherwise wait for the connection; on timeout log and return
without constructing anything.  On success construct the
`OpusBufferedAudio` (100 ms buffer) and the sink and start listening;
if `listen` raises, discard both and re-raise. -/
def start_receiving (c : VoiceRecvClient) (connAt : Nat → Bool) (fuel : Nat)
    (listenOk : Bool) : StartResult :=
  if c.sink then ⟨c, false⟩
  else if wait_for_connection connAt fuel = false then ⟨c, false⟩
  else if listenOk then
    ⟨{ c with audio_source := some (initState (max_frames_of 100)), sink := true }, false⟩
  else
    ⟨{ c with audio_source := none, sink := false }, true⟩

/-- The externally visible teardown actions of `stop_receiving` and
`OpusBufferedAudio.cleanup`, with the bounded timeouts (in ms) they
pass. -/
inductive TeardownAction where
  | stopListen
  | stopPlayback
  | setRunningFalse
  | joinDrainThread (timeout_ms : Nat)
  | closeStdin
  | closeStdout
  | terminateProc
  | waitProc (timeout_ms : Nat)
  | discardRefs
deriving DecidableEq, Repr

/-- The action trace of `OpusBufferedAudio.cleanup`: flip the running
flag; join the drain thread (timeout 1 s) if it is alive; then close the
pipes, terminate ffmpeg and wait (timeout 1 s) inside a `try` block —
`procExcAt = some i` means the `i`-th of those four process operations
raised, the exception was caught and the rest skipped. -/
def cleanup_actions (threadAlive : Bool) (procExcAt : Option (Fin 4)) : List TeardownAction :=
  [.setRunningFalse] ++
  (if threadAlive then [.joinDrainThread 1000] else []) ++
  (match procExcAt with
   | none => [.closeStdin, .closeStdout, .terminateProc, .waitProc 1000]
   | some i => List.take (i.val + 1) [.closeStdin, .closeStdout, .terminateProc, .waitProc 1000])

/-- `VoiceRecvClient.stop_receiving`: if a sink exists, stop listening,
stop playback if active, run the buffer's `cleanup`, and null out the
sink and source references.  Returns the new session state and the
teardown action trace. -/
def stop_receiving (c : VoiceRecvClient) (threadAlive : Bool) (procExcAt : Option (Fin 4)) :
    VoiceRecvClient × List TeardownAction :=
  if c.sink then
    ({ connected := c.connected, sink := false, audio_source := none, playing := c.playing },
      [.stopListen] ++
      (if c.playing then [.stopPlayback] else []) ++
      (if c.audio_source.isSome then cleanup_actions threadAlive procExcAt else []) ++
      [.discardRefs])
  else (c, [])

/-- `a` occurs only before `b` in the trace `tr`. -/
def OccursBefore (a b : TeardownAction) (tr : List TeardownAction) : Prop :=
  ∀ i j : Fin tr.length, tr.get i = a → tr.get j = b → i.val < j.val

instance (a b : TeardownAction) (tr : List TeardownAction) :
    Decidable (OccursBefore a b tr) := by
  unfold OccursBefore
  infer_instance

/-! ## Basic facts about the scan and the bounded append -/

theorem mem_sortBuf {p : AudioPacket} {l : List AudioPacket} : p ∈ sortBuf l ↔ p ∈ l :=
  (List.perm_insertionSort _ l).mem_iff

theorem findNext_eq_none_iff {s : OpusBufferedAudio} :
    findNext s = none ↔ ∀ p ∈ s.buffer, (p.sequence : Int) ≠ s.last_read_sequence + 1 := by
  unfold findNext
  rw [List.find?_eq_none]
  constructor
  · intro h p hp hpe
    have := h p (mem_sortBuf.mpr hp)
    simp only [beq_iff_eq] at this
    exact this hpe
  · intro h p hp
    simp only [beq_iff_eq]
    exact h p (mem_sortBuf.mp hp)

theorem findNext_some {s : OpusBufferedAudio} {p : AudioPacket} (h : findNext s = some p) :
    p ∈ s.buffer ∧ (p.sequence : Int) = s.last_read_sequence + 1 := by
  unfold findNext at h
  refine ⟨mem_sortBuf.mp (List.mem_of_find?_eq_some h), ?_⟩
  have := List.find?_some h
  simpa using this

theorem buffer_seq_nodup {s : OpusBufferedAudio} (h : BufInv s) :
    (s.buffer.map (fun p => p.sequence)).Nodup :=
  h.1.imp (fun hab => Nat.ne_of_lt hab)

theorem seq_injective {s : OpusBufferedAudio} (h : BufInv s) {p q : AudioPacket}
    (hp : p ∈ s.buffer) (hq : q ∈ s.buffer) (hpq : p.sequence = q.sequence) : p = q :=
  List.inj_on_of_nodup_map (buffer_seq_nodup h) hp hq hpq

theorem dequeAppend_sublist (m : Nat) (l : List AudioPacket) (p : AudioPacket) :
    (dequeAppend m l p).Sublist (l ++ [p]) := by
  simp only [dequeAppend]
  split
  · exact List.drop_sublist _ _
  · exact List.Sublist.refl _

theorem mem_dequeAppend {m : Nat} {l : List AudioPacket} {p q : AudioPacket}
    (h : q ∈ dequeAppend m l p) : q ∈ l ++ [p] :=
  (dequeAppend_sublist m l p).subset h

theorem length_dequeAppend_le (m : Nat) (l : List AudioPacket) (p : AudioPacket) :
    (dequeAppend m l p).length ≤ m := by
  simp only [dequeAppend]
  split
  · simp only [List.length_drop]
    omega
  · omega

/-! ## Preservation of the buffer invariant -/

theorem bufInv_initState (m : Nat) : BufInv (initState m) := by
  refine ⟨?_, ?_, ?_⟩ <;> simp [initState]

theorem bufInv_add {s : OpusBufferedAudio} (h : BufInv s) (pcm : List Nat) (now : Int) :
    BufInv (add_audio s pcm now) := by
  obtain ⟨hs, hb, hl⟩ := h
  have hsub := dequeAppend_sublist s.max_frames s.buffer
    { data := pcm, sequence := s.next_sequence, timestamp := now }
  have hsort : ((s.buffer ++ [({ data := pcm, sequence := s.next_sequence, timestamp := now } : AudioPacket)]).map
      (fun p => p.sequence)).Pairwise (· < ·) := by
    rw [List.map_append, List.pairwise_append]
    refine ⟨hs, List.pairwise_singleton _ _, ?_⟩
    intro a ha b hbb
    simp only [List.map_cons, List.map_nil, List.mem_singleton] at hbb
    subst hbb
    simp only [List.mem_map] at ha
    obtain ⟨q, hq, rfl⟩ := ha
    exact hb q hq
  refine ⟨?_, ?_, ?_⟩
  · exact List.Pairwise.sublist (hsub.map _) hsort
  · intro p hp
    rcases List.mem_append.mp (mem_dequeAppend hp) with hmem | hmem
    · exact Nat.lt_succ_of_lt (hb p hmem)
    · simp only [List.mem_singleton] at hmem
      subst hmem
      exact Nat.lt_succ_self _
  · have : (s.next_sequence : Int) < ((s.next_sequence + 1 : Nat) : Int) := by
      push_cast
      omega
    exact lt_trans hl this

theorem cycle_cases (s : OpusBufferedAudio) (w : Bool) (now : Int) :
    (s.running = false ∧ process_buffer_cycle s w now = (s, none)) ∨
    (s.running = true ∧ findNext s = none ∧ process_buffer_cycle s w now = (s, none)) ∨
    (∃ p, s.running = true ∧ findNext s = some p ∧ w = false ∧
      process_buffer_cycle s w now = ({ s with buffer := s.buffer.erase p }, none)) ∨
    (∃ p, s.running = true ∧ findNext s = some p ∧ w = true ∧
      process_buffer_cycle s w now =
        ({ s with buffer := s.buffer.erase p, last_read_sequence := (p.sequence : Int), last_timestamp := now }, some p)) := by
  cases hr : s.running with
  | false => exact Or.inl ⟨rfl, by simp [process_buffer_cycle, hr]⟩
  | true =>
    cases hf : findNext s with
    | none => exact Or.inr (Or.inl ⟨rfl, rfl, by simp [process_buffer_cycle, hr, hf]⟩)
    | some p =>
      cases w with
      | false =>
        exact Or.inr (Or.inr (Or.inl ⟨p, rfl, rfl, rfl, by simp [process_buffer_cycle, hr, hf]⟩))
      | true =>
        exact Or.inr (Or.inr (Or.inr ⟨p, rfl, rfl, rfl, by simp [process_buffer_cycle, hr, hf]⟩))

theorem cycle_next_sequence (s : OpusBufferedAudio) (w : Bool) (now : Int) :
    (process_buffer_cycle s w now).1.next_sequence = s.next_sequence := by
  rcases cycle_cases s w now with ⟨_, he⟩ | ⟨_, _, he⟩ | ⟨p, _, _, _, he⟩ | ⟨p, _, _, _, he⟩ <;>
    rw [he]

theorem cycle_max_frames (s : OpusBufferedAudio) (w : Bool) (now : Int) :
    (process_buffer_cycle s w now).1.max_frames = s.max_frames := by
  rcases cycle_cases s w now with ⟨_, he⟩ | ⟨_, _, he⟩ | ⟨p, _, _, _, he⟩ | ⟨p, _, _, _, he⟩ <;>
    rw [he]

theorem cycle_running (s : OpusBufferedAudio) (w : Bool) (now : Int) :
    (process_buffer_cycle s w now).1.running = s.running := by
  rcases cycle_cases s w now with ⟨_, he⟩ | ⟨_, _, he⟩ | ⟨p, _, _, _, he⟩ | ⟨p, _, _, _, he⟩ <;>
    rw [he]

theorem cycle_buffer_sublist (s : OpusBufferedAudio) (w : Bool) (now : Int) :
    ((process_buffer_cycle s w now).1.buffer).Sublist s.buffer := by
  rcases cycle_cases s w now with ⟨_, he⟩ | ⟨_, _, he⟩ | ⟨p, _, _, _, he⟩ | ⟨p, _, _, _, he⟩ <;>
    rw [he]
  · exact List.erase_sublist _ _
  · exact List.erase_sublist _ _

theorem bufInv_cycle {s : OpusBufferedAudio} (h : BufInv s) (w : Bool) (now : Int) :
    BufInv (process_buffer_cycle s w now).1 := by
  obtain ⟨hs, hb, hl⟩ := h
  have hsub := cycle_buffer_sublist s w now
  have hsort : (((process_buffer_cycle s w now).1.buffer).map (fun p => p.sequence)).Pairwise (· < ·) :=
    List.Pairwise.sublist (hsub.map _) hs
  have hmem : ∀ p ∈ (process_buffer_cycle s w now).1.buffer, p.sequence < s.next_sequence :=
    fun p hp => hb p (hsub.subset hp)
  rcases cycle_cases s w now with ⟨_, he⟩ | ⟨_, _, he⟩ | ⟨p, _, _, _, he⟩ | ⟨p, _, hf, _, he⟩ <;>
    rw [he] at hsort hmem ⊢
  · exact ⟨hs, hb, hl⟩
  · exact ⟨hs, hb, hl⟩
  · exact ⟨hsort, hmem, hl⟩
  · refine ⟨hsort, hmem, ?_⟩
    have hpm := findNext_some hf
    exact Int.ofNat_lt.mpr (hb p hpm.1)

/-! ## Step- and run-level facts -/

theorem stepEvent_max_frames (s : OpusBufferedAudio) (e : BufEvent) :
    (stepEvent s e).1.max_frames = s.max_frames := by
  cases e with
  | add pcm now => rfl
  | cycle w now => exact cycle_max_frames s w now
  | stop => rfl

theorem bufInv_step {s : OpusBufferedAudio} (h : BufInv s) (e : BufEvent) :
    BufInv (stepEvent s e).1 := by
  cases e with
  | add pcm now => exact bufInv_add h pcm now
  | cycle w now => exact bufInv_cycle h w now
  | stop => exact h

theorem bufInv_run (es : List BufEvent) : ∀ {s : OpusBufferedAudio}, BufInv s →
    BufInv (runEvents s es).1 := by
  induction es with
  | nil => intro s h; exact h
  | cons e es ih => intro s h; exact ih (bufInv_step h e)

theorem runEvents_next_sequence (es : List BufEvent) : ∀ s : OpusBufferedAudio,
    (runEvents s es).1.next_sequence = s.next_sequence + countAdds es := by
  induction es with
  | nil => intro s; simp [runEvents, countAdds]
  | cons e es ih =>
    intro s
    cases e with
    | add pcm now =>
      show (runEvents (add_audio s pcm now) es).1.next_sequence = _
      rw [ih]
      simp only [add_audio, countAdds]
      omega
    | cycle w now =>
      show (runEvents (process_buffer_cycle s w now).1 es).1.next_sequence = _
      rw [ih, cycle_next_sequence]
      rfl
    | stop =>
      show (runEvents (cleanup s) es).1.next_sequence = _
      rw [ih]
      rfl

theorem runEvents_max_frames (es : List BufEvent) : ∀ s : OpusBufferedAudio,
    (runEvents s es).1.max_frames = s.max_frames := by
  induction es with
  | nil => intro s; rfl
  | cons e es ih =>
    intro s
    show (runEvents (stepEvent s e).1 es).1.max_frames = _
    rw [ih, stepEvent_max_frames]

theorem stepEvent_buffer_le (s : OpusBufferedAudio) (e : BufEvent)
    (h : s.buffer.length ≤ s.max_frames) :
    (stepEvent s e).1.buffer.length ≤ (stepEvent s e).1.max_frames := by
  cases e with
  | add pcm now => exact length_dequeAppend_le _ _ _
  | cycle w now =>
    show (process_buffer_cycle s w now).1.buffer.length ≤ (process_buffer_cycle s w now).1.max_frames
    rw [cycle_max_frames]
    exact le_trans ((cycle_buffer_sublist s w now).length_le) h
  | stop => exact h

theorem runEvents_buffer_le (es : List BufEvent) : ∀ s : OpusBufferedAudio,
    s.buffer.length ≤ s.max_frames →
    (runEvents s es).1.buffer.length ≤ (runEvents s es).1.max_frames := by
  induction es with
  | nil => intro s h; exact h
  | cons e es ih =>
    intro s h
    exact ih (stepEvent s e).1 (stepEvent_buffer_le s e h)

theorem stepEvent_out_none {s : OpusBufferedAudio} {e : BufEvent} {s' : OpusBufferedAudio}
    (h : stepEvent s e = (s', none)) : s'.last_read_sequence = s.last_read_sequence := by
  cases e with
  | add pcm now =>
    injection h with h1 h2
    subst h1
    rfl
  | cycle w now =>
    rcases cycle_cases s w now with ⟨_, he⟩ | ⟨_, _, he⟩ | ⟨p, _, _, _, he⟩ | ⟨p, _, _, _, he⟩ <;>
      rw [show stepEvent s (.cycle w now) = process_buffer_cycle s w now from rfl, he] at h <;>
      injection h with h1 h2
    · subst h1; rfl
    · subst h1; rfl
    · subst h1; rfl
    · exact Option.noConfusion h2
  | stop =>
    injection h with h1 h2
    subst h1
    rfl

theorem stepEvent_out_some {s : OpusBufferedAudio} {e : BufEvent} {s' : OpusBufferedAudio}
    {p : AudioPacket} (h : stepEvent s e = (s', some p)) :
    (p.sequence : Int) = s.last_read_sequence + 1 ∧
    s'.last_read_sequence = (p.sequence : Int) ∧ p ∈ s.buffer := by
  cases e with
  | add pcm now =>
    injection h with h1 h2
    exact Option.noConfusion h2
  | cycle w now =>
    rcases cycle_cases s w now with ⟨_, he⟩ | ⟨_, _, he⟩ | ⟨q, _, _, _, he⟩ | ⟨q, _, hf, _, he⟩ <;>
      rw [show stepEvent s (.cycle w now) = process_buffer_cycle s w now from rfl, he] at h <;>
      injection h with h1 h2
    · exact Option.noConfusion h2
    · exact Option.noConfusion h2
    · exact Option.noConfusion h2
    · injection h2 with h3
      subst h3
      subst h1
      obtain ⟨hm, hseq⟩ := findNext_some hf
      exact ⟨hseq, rfl, hm⟩
  | stop =>
    injection h with h1 h2
    exact Option.noConfusion h2

theorem runEvents_emissions (es : List BufEvent) : ∀ {s : OpusBufferedAudio}, BufInv s →
    s.last_read_sequence ≤ (runEvents s es).1.last_read_sequence ∧
    (∀ p ∈ (runEvents s es).2, s.last_read_sequence < (p.sequence : Int) ∧
      (p.sequence : Int) ≤ (runEvents s es).1.last_read_sequence) ∧
    ((runEvents s es).2.map (fun p => p.sequence)).Sorted (· < ·) := by
  induction es with
  | nil =>
    intro s h
    refine ⟨le_refl _, ?_, ?_⟩ <;> simp [runEvents]
  | cons e es ih =>
    intro s h
    obtain ⟨ihle, ihmem, ihsort⟩ := ih (bufInv_step h e)
    have hsplit : stepEvent s e = ((stepEvent s e).1, (stepEvent s e).2) := rfl
    have hrun1 : (runEvents s (e :: es)).1 = (runEvents (stepEvent s e).1 es).1 := rfl
    have hrun2 : (runEvents s (e :: es)).2 =
        (stepEvent s e).2.toList ++ (runEvents (stepEvent s e).1 es).2 := rfl
    cases hout : (stepEvent s e).2 with
    | none =>
      rw [hout] at hsplit
      have hlast := stepEvent_out_none hsplit
      rw [hrun1, hrun2, hout]
      simp only [Option.toList_none, List.nil_append]
      rw [← hlast]
      exact ⟨ihle, ihmem, ihsort⟩
    | some p =>
      rw [hout] at hsplit
      obtain ⟨hpseq, hplast, hpmem⟩ := stepEvent_out_some hsplit
      rw [hrun1, hrun2, hout]
      simp only [Option.toList_some, List.singleton_append]
      have hlt1 : s.last_read_sequence < (p.sequence : Int) := by
        rw [hpseq]
        omega
      have hle1 : (p.sequence : Int) ≤ (runEvents (stepEvent s e).1 es).1.last_read_sequence := by
        rw [← hplast]
        exact ihle
      refine ⟨le_trans (le_of_lt hlt1) hle1, ?_, ?_⟩
      · intro q hq
        rcases List.mem_cons.mp hq with rfl | hq
        · exact ⟨hlt1, hle1⟩
        · obtain ⟨hq1, hq2⟩ := ihmem q hq
          refine ⟨lt_trans hlt1 ?_, hq2⟩
          rw [← hplast]
          exact hq1
      · rw [List.map_cons]
        rw [List.sorted_cons]
        refine ⟨?_, ihsort⟩
        intro b hb
        simp only [List.mem_map] at hb
        obtain ⟨q, hq, rfl⟩ := hb
        have hq1 := (ihmem q hq).1
        rw [hplast] at hq1
        exact_mod_cast hq1

/-! ## Permanently stalled states -/

theorem stalled_stepEvent {s : OpusBufferedAudio} (h : StalledState s) (e : BufEvent) :
    StalledState (stepEvent s e).1 ∧ (stepEvent s e).2 = none ∧
    (stepEvent s e).1.last_read_sequence = s.last_read_sequence := by
  obtain ⟨hlt, habs⟩ := h
  cases e with
  | add pcm now =>
    refine ⟨⟨?_, ?_⟩, rfl, rfl⟩
    · show s.last_read_sequence + 1 < ((s.next_sequence + 1 : Nat) : Int)
      push_cast
      omega
    · intro p hp
      rcases List.mem_append.mp (mem_dequeAppend hp) with hm | hm
      · exact habs p hm
      · simp only [List.mem_singleton] at hm
        subst hm
        show ((s.next_sequence : Nat) : Int) ≠ s.last_read_sequence + 1
        omega
  | cycle w now =>
    have hf : findNext s = none := findNext_eq_none_iff.mpr habs
    have he : stepEvent s (.cycle w now) = (s, none) := by
      show process_buffer_cycle s w now = (s, none)
      cases hr : s.running <;> simp [process_buffer_cycle, hr, hf]
    rw [he]
    exact ⟨⟨hlt, habs⟩, rfl, rfl⟩
  | stop =>
    exact ⟨⟨hlt, habs⟩, rfl, rfl⟩

theorem stalled_runEvents (es : List BufEvent) : ∀ {s : OpusBufferedAudio}, StalledState s →
    (runEvents s es).2 = [] ∧
    (runEvents s es).1.last_read_sequence = s.last_read_sequence ∧
    StalledState (runEvents s es).1 := by
  induction es with
  | nil => intro s h; exact ⟨rfl, rfl, h⟩
  | cons e es ih =>
    intro s h
    obtain ⟨hs1, hout, hlast⟩ := stalled_stepEvent h e
    obtain ⟨ihe, ihl, ihs⟩ := ih hs1
    refine ⟨?_, ?_, ihs⟩
    · show (stepEvent s e).2.toList ++ (runEvents (stepEvent s e).1 es).2 = []
      rw [hout, ihe]
      rfl
    · show (runEvents (stepEvent s e).1 es).1.last_read_sequence = _
      rw [ihl, hlast]

theorem failed_write_stalled {s : OpusBufferedAudio} {p : AudioPacket} (hinv : BufInv s)
    (hr : s.running = true) (hf : findNext s = some p) (now : Int) :
    process_buffer_cycle s false now = ({ s with buffer := s.buffer.erase p }, none) ∧
    StalledState { s with buffer := s.buffer.erase p } ∧
    p ∉ s.buffer.erase p := by
  obtain ⟨hpmem, hpseq⟩ := findNext_some hf
  have hnodup : s.buffer.Nodup := List.Nodup.of_map _ (buffer_seq_nodup hinv)
  have hnotmem : p ∉ s.buffer.erase p := hnodup.not_mem_erase
  refine ⟨by simp [process_buffer_cycle, hr, hf], ⟨?_, ?_⟩, hnotmem⟩
  · show s.last_read_sequence + 1 < (s.next_sequence : Int)
    rw [← hpseq]
    exact_mod_cast hinv.2.1 p hpmem
  · intro q hq hqe
    have hqmem := List.mem_of_mem_erase hq
    have hqseq : q.sequence = p.sequence := by
      have hqp : (q.sequence : Int) = (p.sequence : Int) := by
        rw [hpseq]
        exact hqe
      exact_mod_cast hqp
    have hqepp : q = p := seq_injective hinv hqmem hpmem hqseq
    subst hqepp
    exact hnotmem hq

/-! ## List helpers -/

theorem sorted_lt_sublist_range : ∀ (n : Nat) (l : List Nat), l.Sorted (· < ·) →
    (∀ x ∈ l, x < n) → l.Sublist (List.range n) := by
  intro n
  induction n with
  | zero =>
    intro l hs hb
    cases l with
    | nil => exact List.nil_sublist _
    | cons a t => exact absurd (hb a (List.mem_cons_self a t)) (Nat.not_lt_zero a)
  | succ n ih =>
    intro l hs hb
    rcases List.eq_nil_or_concat l with rfl | ⟨ys, y, rfl⟩
    · exact List.nil_sublist _
    · rw [List.range_succ]
      rw [List.concat_eq_append] at hs hb ⊢
      have hsplit := List.pairwise_append.mp hs
      have hys : ys.Sorted (· < ·) := hsplit.1
      have hlt : ∀ x ∈ ys, x < y := fun x hx => hsplit.2.2 x hx y (List.mem_singleton.mpr rfl)
      have hyn : y < n + 1 := hb y (by simp)
      by_cases hy : y = n
      · subst hy
        exact List.Sublist.append (ih ys hys (fun x hx => hlt x hx)) (List.Sublist.refl [y])
      · have hbn : ∀ x ∈ ys ++ [y], x < n := by
          intro x hx
          rcases List.mem_append.mp hx with hx | hx
          · have := hlt x hx
            omega
          · simp only [List.mem_singleton] at hx
            subst hx
            omega
        exact (ih _ hs hbn).trans (List.sublist_append_left _ _)

theorem assignedSeqs_eq_range' (es : List BufEvent) : ∀ s : OpusBufferedAudio,
    assignedSeqs s es = List.range' s.next_sequence (countAdds es) := by
  induction es with
  | nil => intro s; rfl
  | cons e es ih =>
    intro s
    cases e with
    | add pcm now =>
      show s.next_sequence :: assignedSeqs (add_audio s pcm now) es = _
      rw [ih]
      show _ = List.range' s.next_sequence (countAdds es + 1)
      rw [List.range'_succ]
      rfl
    | cycle w now =>
      show assignedSeqs (process_buffer_cycle s w now).1 es = _
      rw [ih, cycle_next_sequence]
      rfl
    | stop =>
      show assignedSeqs (cleanup s) es = _
      rw [ih]
      rfl

/-! ## Timestamp-erased views (noninterference machinery) -/

theorem map_seq_eq_of_view {l1 l2 : List AudioPacket}
    (h : l1.map packetView = l2.map packetView) :
    l1.map (fun p => p.sequence) = l2.map (fun p => p.sequence) := by
  have e1 : l1.map (fun p => p.sequence) = (l1.map packetView).map Prod.snd := by
    rw [List.map_map]
    rfl
  have e2 : l2.map (fun p => p.sequence) = (l2.map packetView).map Prod.snd := by
    rw [List.map_map]
    rfl
  rw [e1, e2, h]

theorem stateView_fields {s1 s2 : OpusBufferedAudio} (h : stateView s1 = stateView s2) :
    s1.next_sequence = s2.next_sequence ∧ s1.last_read_sequence = s2.last_read_sequence ∧
    s1.max_frames = s2.max_frames ∧ s1.running = s2.running ∧
    s1.buffer.map packetView = s2.buffer.map packetView := by
  unfold stateView at h
  simp only [Prod.mk.injEq] at h
  exact h

theorem bufInv_of_view {s1 s2 : OpusBufferedAudio} (h : stateView s1 = stateView s2)
    (hi : BufInv s1) : BufInv s2 := by
  obtain ⟨hn, hl, hm, hr, hbuf⟩ := stateView_fields h
  obtain ⟨hs1, hb1, hl1⟩ := hi
  have hseq := map_seq_eq_of_view hbuf
  refine ⟨?_, ?_, ?_⟩
  · rw [← hseq]
    exact hs1
  · intro p hp
    have hmem : p.sequence ∈ s2.buffer.map (fun p => p.sequence) :=
      List.mem_map_of_mem _ hp
    rw [← hseq] at hmem
    obtain ⟨q, hq, hqe⟩ := List.mem_map.mp hmem
    rw [← hn, ← hqe]
    exact hb1 q hq
  · rw [← hn, ← hl]
    exact hl1

theorem view_mem {l1 l2 : List AudioPacket} (h : l1.map packetView = l2.map packetView)
    {p : AudioPacket} (hp : p ∈ l1) : ∃ q ∈ l2, packetView q = packetView p := by
  have hpm : packetView p ∈ l2.map packetView := by
    rw [← h]
    exact List.mem_map_of_mem _ hp
  obtain ⟨q, hq, hqe⟩ := List.mem_map.mp hpm
  exact ⟨q, hq, hqe⟩

theorem erase_map_view : ∀ (l1 l2 : List AudioPacket) (p1 p2 : AudioPacket),
    l1.map packetView = l2.map packetView →
    packetView p1 = packetView p2 →
    (l1.map (fun p => p.sequence)).Nodup →
    p1 ∈ l1 → p2 ∈ l2 →
    (l1.erase p1).map packetView = (l2.erase p2).map packetView := by
  intro l1
  induction l1 with
  | nil =>
    intro l2 p1 p2 h hp hn hm1 hm2
    exact absurd hm1 (List.not_mem_nil p1)
  | cons a t1 ih =>
    intro l2 p1 p2 h hp hn hm1 hm2
    cases l2 with
    | nil => simp at h
    | cons b t2 =>
      simp only [List.map_cons, List.cons.injEq] at h
      obtain ⟨hab, ht⟩ := h
      have hfull : (a :: t1).map packetView = (b :: t2).map packetView := by
        simp [hab, ht]
      have hn2 : ((b :: t2).map (fun p => p.sequence)).Nodup := by
        rw [← map_seq_eq_of_view hfull]
        exact hn
      have hseqview : ∀ x y : AudioPacket, packetView x = packetView y → x.sequence = y.sequence :=
        fun x y hxy => congrArg Prod.snd hxy
      by_cases hap : a = p1
      · subst hap
        have hbp : b = p2 := by
          refine List.inj_on_of_nodup_map hn2 (List.mem_cons_self b t2) hm2 ?_
          refine hseqview b p2 ?_
          rw [← hab]
          exact hp
        subst hbp
        rw [List.erase_cons_head, List.erase_cons_head]
        exact ht
      · have hbp : b ≠ p2 := by
          intro hbe
          subst hbe
          apply hap
          refine List.inj_on_of_nodup_map hn (List.mem_cons_self a t1) hm1 ?_
          refine hseqview a p1 ?_
          rw [hab]
          exact hp.symm
        have hm1' : p1 ∈ t1 := by
          rcases List.mem_cons.mp hm1 with hh | ht1
          · exact absurd hh.symm hap
          · exact ht1
        have hm2' : p2 ∈ t2 := by
          rcases List.mem_cons.mp hm2 with hh | ht2
          · exact absurd hh.symm hbp
          · exact ht2
        have hnt1 : (t1.map (fun p => p.sequence)).Nodup := by
          rw [List.map_cons] at hn
          exact (List.nodup_cons.mp hn).2
        rw [List.erase_cons_tail (by simp [hap]), List.erase_cons_tail (by simp [hbp])]
        simp only [List.map_cons]
        rw [hab, ih t2 p1 p2 ht hp hnt1 hm1' hm2']

theorem findNext_view {s1 s2 : OpusBufferedAudio} (h : stateView s1 = stateView s2)
    (hi1 : BufInv s1) :
    (findNext s1 = none → findNext s2 = none) ∧
    (∀ p1, findNext s1 = some p1 →
      ∃ p2, findNext s2 = some p2 ∧ packetView p1 = packetView p2) := by
  obtain ⟨hn, hl, hm, hr, hbuf⟩ := stateView_fields h
  have hi2 : BufInv s2 := bufInv_of_view h hi1
  constructor
  · intro hnone
    rw [findNext_eq_none_iff] at hnone ⊢
    intro p hp
    obtain ⟨q, hq, hqe⟩ := view_mem hbuf.symm hp
    have hqs : q.sequence = p.sequence := congrArg Prod.snd hqe
    rw [← hl, ← hqs]
    exact hnone q hq
  · intro p1 hf
    obtain ⟨hp1m, hp1seq⟩ := findNext_some hf
    obtain ⟨q, hq, hqe⟩ := view_mem hbuf hp1m
    have hqseq : (q.sequence : Int) = s2.last_read_sequence + 1 := by
      have hqs : q.sequence = p1.sequence := congrArg Prod.snd hqe
      rw [hqs, ← hl]
      exact hp1seq
    cases hf2 : findNext s2 with
    | none => exact absurd hqseq (findNext_eq_none_iff.mp hf2 q hq)
    | some p2 =>
      obtain ⟨hp2m, hp2seq⟩ := findNext_some hf2
      have hpq : p2 = q := by
        refine seq_injective hi2 hp2m hq ?_
        have := hp2seq.trans hqseq.symm
        exact_mod_cast this
      subst hpq
      exact ⟨p2, rfl, hqe.symm⟩

theorem dequeAppend_map_view {m : Nat} {l1 l2 : List AudioPacket} {p1 p2 : AudioPacket}
    (hl : l1.map packetView = l2.map packetView) (hp : packetView p1 = packetView p2) :
    (dequeAppend m l1 p1).map packetView = (dequeAppend m l2 p2).map packetView := by
  have hlen : l1.length = l2.length := by
    have hc := congrArg List.length hl
    simpa using hc
  have hlen2 : (l1 ++ [p1]).length = (l2 ++ [p2]).length := by simp [hlen]
  have hmap : (l1 ++ [p1]).map packetView = (l2 ++ [p2]).map packetView := by
    simp [hl, hp]
  simp only [dequeAppend]
  rw [hlen2]
  split
  · rw [List.map_drop, List.map_drop, hmap]
  · exact hmap

theorem step_view {s1 s2 : OpusBufferedAudio} {e1 e2 : BufEvent}
    (h : stateView s1 = stateView s2) (hi1 : BufInv s1) (he : eventView e1 = eventView e2) :
    stateView (stepEvent s1 e1).1 = stateView (stepEvent s2 e2).1 ∧
    Option.map packetView (stepEvent s1 e1).2 = Option.map packetView (stepEvent s2 e2).2 := by
  obtain ⟨hn, hl, hm, hr, hbuf⟩ := stateView_fields h
  cases e1 with
  | add pcm now =>
    cases e2 with
    | cycle w' now' => simp [eventView] at he
    | stop => simp [eventView] at he
    | add pcm' now' =>
      simp only [eventView, BufEventView.add.injEq] at he
      subst he
      refine ⟨?_, rfl⟩
      show stateView (add_audio s1 pcm now) = stateView (add_audio s2 pcm now')
      unfold stateView add_audio
      simp only [Prod.mk.injEq]
      refine ⟨by rw [hn], hl, hm, hr, ?_⟩
      rw [hm, hn]
      exact dequeAppend_map_view hbuf rfl
  | cycle w now =>
    cases e2 with
    | add pcm' now' => simp [eventView] at he
    | stop => simp [eventView] at he
    | cycle w' now' =>
      simp only [eventView, BufEventView.cycle.injEq] at he
      subst he
      obtain ⟨hfn, hfs⟩ := findNext_view h hi1
      show stateView (process_buffer_cycle s1 w now).1 = stateView (process_buffer_cycle s2 w now').1 ∧
        Option.map packetView (process_buffer_cycle s1 w now).2 =
          Option.map packetView (process_buffer_cycle s2 w now').2
      cases hrun : s1.running with
      | false =>
        have hrun2 : s2.running = false := by rw [← hr]; exact hrun
        simp [process_buffer_cycle, hrun, hrun2, h]
      | true =>
        have hrun2 : s2.running = true := by rw [← hr]; exact hrun
        cases hf1 : findNext s1 with
        | none =>
          have hf2 := hfn hf1
          simp [process_buffer_cycle, hrun, hrun2, hf1, hf2, h]
        | some p1 =>
          obtain ⟨p2, hf2, hvp⟩ := hfs p1 hf1
          have hnodup1 : (s1.buffer.map (fun p => p.sequence)).Nodup := buffer_seq_nodup hi1
          have hp1m := (findNext_some hf1).1
          have hp2m := (findNext_some hf2).1
          have herase := erase_map_view s1.buffer s2.buffer p1 p2 hbuf hvp hnodup1 hp1m hp2m
          cases w with
          | false =>
            have e1eq : process_buffer_cycle s1 false now =
                ({ s1 with buffer := s1.buffer.erase p1 }, none) := by
              simp [process_buffer_cycle, hrun, hf1]
            have e2eq : process_buffer_cycle s2 false now' =
                ({ s2 with buffer := s2.buffer.erase p2 }, none) := by
              simp [process_buffer_cycle, hrun2, hf2]
            rw [e1eq, e2eq]
            refine ⟨?_, rfl⟩
            unfold stateView
            simp only [Prod.mk.injEq]
            exact ⟨hn, hl, hm, hr, herase⟩
          | true =>
            have hseq : p1.sequence = p2.sequence := congrArg Prod.snd hvp
            have e1eq : process_buffer_cycle s1 true now =
                ({ s1 with buffer := s1.buffer.erase p1, last_read_sequence := (p1.sequence : Int), last_timestamp := now }, some p1) := by
              simp [process_buffer_cycle, hrun, hf1]
            have e2eq : process_buffer_cycle s2 true now' =
                ({ s2 with buffer := s2.buffer.erase p2, last_read_sequence := (p2.sequence : Int), last_timestamp := now' }, some p2) := by
              simp [process_buffer_cycle, hrun2, hf2]
            rw [e1eq, e2eq]
            refine ⟨?_, ?_⟩
            · unfold stateView
              simp only [Prod.mk.injEq]
              exact ⟨hn, by rw [hseq], hm, hr, herase⟩
            · simp [hvp]
  | stop =>
    cases e2 with
    | add pcm' now' => simp [eventView] at he
    | cycle w' now' => simp [eventView] at he
    | stop =>
      refine ⟨?_, rfl⟩
      show stateView (cleanup s1) = stateView (cleanup s2)
      unfold stateView cleanup
      simp only [Prod.mk.injEq]
      exact ⟨hn, hl, hm, trivial, hbuf⟩

theorem run_view (es1 : List BufEvent) : ∀ {s1 s2 : OpusBufferedAudio} (es2 : List BufEvent),
    stateView s1 = stateView s2 → BufInv s1 →
    es1.map eventView = es2.map eventView →
    ((runEvents s1 es1).2).map packetView = ((runEvents s2 es2).2).map packetView := by
  induction es1 with
  | nil =>
    intro s1 s2 es2 h hi he
    cases es2 with
    | nil => rfl
    | cons e es => simp at he
  | cons e1 es1 ih =>
    intro s1 s2 es2 h hi he
    cases es2 with
    | nil => simp at he
    | cons e2 es2 =>
      simp only [List.map_cons, List.cons.injEq] at he
      obtain ⟨he1, hes⟩ := he
      obtain ⟨hsv, hov⟩ := step_view h hi he1
      have hrec := ih es2 hsv (bufInv_step hi e1) hes
      show ((stepEvent s1 e1).2.toList ++ (runEvents (stepEvent s1 e1).1 es1).2).map packetView =
        ((stepEvent s2 e2).2.toList ++ (runEvents (stepEvent s2 e2).1 es2).2).map packetView
      rw [List.map_append, List.map_append, hrec]
      cases ho1 : (stepEvent s1 e1).2 <;> cases ho2 : (stepEvent s2 e2).2 <;>
        rw [ho1, ho2] at hov <;> simp_all

theorem dequeAppend_full {m : Nat} {l : List AudioPacket} (p : AudioPacket)
    (hlen : l.length = m) (hpos : 0 < m) :
    dequeAppend m l p = l.tail ++ [p] := by
  have hc : m < (l ++ [p]).length := by
    rw [List.length_append, hlen]
    simp
  simp only [dequeAppend]
  rw [if_pos hc]
  have hd : (l ++ [p]).length - m = 1 := by
    rw [List.length_append, hlen]
    simp
  rw [hd]
  cases l with
  | nil =>
    simp at hlen
    omega
  | cons a t => simp

/-! ## The claims -/

/-- C1, counterexample.  The claim asserts a skip-ahead-on-stall policy:
when the packet with sequence `last_read_sequence + 1` stays absent one
frame duration (20 ms) past its expected emission time, the drain loop
supposedly advances `last_read_sequence` to the minimum buffered
sequence minus one.  Concretely: six packets are ingested into the
five-slot buffer (so packet 0 is evicted and permanently lost), and the
drain loop then runs cycles at wall-clock times 10, 30, 60 and 100 ms —
far beyond one frame duration past packet 0's expected emission time.
The claimed policy would have advanced the cursor to
`min {1,2,3,4,5} - 1 = 0` and resumed emission; the code instead leaves
`last_read_sequence = -1`, emits nothing, and keeps all five packets
buffered. -/
theorem C1_counterexample :
    (runEvents (initState 5)
        [BufEvent.add [1] 0, BufEvent.add [2] 0, BufEvent.add [3] 0, BufEvent.add [4] 0,
         BufEvent.add [5] 0, BufEvent.add [6] 0, BufEvent.cycle true 10, BufEvent.cycle true 30,
         BufEvent.cycle true 60, BufEvent.cycle true 100]).1.last_read_sequence = -1 ∧
    (runEvents (initState 5)
        [BufEvent.add [1] 0, BufEvent.add [2] 0, BufEvent.add [3] 0, BufEvent.add [4] 0,
         BufEvent.add [5] 0, BufEvent.add [6] 0, BufEvent.cycle true 10, BufEvent.cycle true 30,
         BufEvent.cycle true 60, BufEvent.cycle true 100]).2 = [] ∧
    ((runEvents (initState 5)
        [BufEvent.add [1] 0, BufEvent.add [2] 0, BufEvent.add [3] 0, BufEvent.add [4] 0,
         BufEvent.add [5] 0, BufEvent.add [6] 0, BufEvent.cycle true 10, BufEvent.cycle true 30,
         BufEvent.cycle true 60, BufEvent.cycle true 100]).1.buffer.map (fun p => p.sequence)) =
      [1, 2, 3, 4, 5] := by
  decide

/-- C1, amended.  The drain loop has no skip-ahead: from any state in
which the awaited packet (sequence `last_read_sequence + 1`) has already
been assigned to a past `add_audio` call but is absent from the buffer,
every further execution — drain cycles at arbitrary wall-clock times,
further ingestion, cleanup — emits nothing and never moves
`last_read_sequence`; the missing packet stalls emission forever. -/
theorem C1_missing_packet_stalls_forever (s : OpusBufferedAudio) (es : List BufEvent)
    (h : StalledState s) :
    (runEvents s es).2 = [] ∧
    (runEvents s es).1.last_read_sequence = s.last_read_sequence := by
  obtain ⟨h1, h2, _⟩ := stalled_runEvents es h
  exact ⟨h1, h2⟩

/-- Witness for `C1_missing_packet_stalls_forever`: the state reached by
six ingestions into the five-slot buffer (packet 0 evicted) is stalled,
and a further cycle/add/cycle run emits nothing. -/
theorem C1_missing_packet_stalls_forever_witness :
    StalledState ((runEvents (initState 5)
        [BufEvent.add [1] 0, BufEvent.add [2] 0, BufEvent.add [3] 0, BufEvent.add [4] 0,
         BufEvent.add [5] 0, BufEvent.add [6] 0]).1) ∧
    ((runEvents ((runEvents (initState 5)
        [BufEvent.add [1] 0, BufEvent.add [2] 0, BufEvent.add [3] 0, BufEvent.add [4] 0,
         BufEvent.add [5] 0, BufEvent.add [6] 0]).1)
        [BufEvent.cycle true 25, BufEvent.add [7] 30, BufEvent.cycle true 45]).2 = [] ∧
      (runEvents ((runEvents (initState 5)
        [BufEvent.add [1] 0, BufEvent.add [2] 0, BufEvent.add [3] 0, BufEvent.add [4] 0,
         BufEvent.add [5] 0, BufEvent.add [6] 0]).1)
        [BufEvent.cycle true 25, BufEvent.add [7] 30, BufEvent.cycle true 45]).1.last_read_sequence =
        ((runEvents (initState 5)
        [BufEvent.add [1] 0, BufEvent.add [2] 0, BufEvent.add [3] 0, BufEvent.add [4] 0,
         BufEvent.add [5] 0, BufEvent.add [6] 0]).1).last_read_sequence) :=
  ⟨by decide, C1_missing_packet_stalls_forever _ _ (by decide)⟩

/-- C2: `read()` always returns exactly `frame_size` bytes
(48000 Hz × 2 channels × 2 bytes × 20 ms = 3840): a frame of zeroes when
the transcode output yields nothing or raises, and zero-padding of any
short read.  The hypothesis `d.length ≤ frame_size` reflects that
`process.stdout.read(frame_size)` returns at most `frame_size` bytes. -/
theorem C2_read_always_full_frame (d : List Nat) (hlen : d.length ≤ frame_size) :
    (OpusBufferedAudio.read (Except.ok d)).length = frame_size ∧
    (OpusBufferedAudio.read (Except.error ())).length = frame_size ∧
    frame_size = 3840 ∧
    OpusBufferedAudio.read (Except.error ()) = List.replicate frame_size 0 ∧
    OpusBufferedAudio.read (Except.ok []) = List.replicate frame_size 0 ∧
    (d.length < frame_size → OpusBufferedAudio.read (Except.ok d) = d ++ List.replicate (frame_size - d.length) 0) := by
  refine ⟨?_, by simp [OpusBufferedAudio.read], rfl, rfl, rfl, ?_⟩
  · simp only [OpusBufferedAudio.read]
    split
    · simp
    · split
      · simp only [ljust, List.length_append, List.length_replicate]
        omega
      · rename_i h0 hfs
        exact not_not.mp hfs
  · intro hlt
    simp only [OpusBufferedAudio.read]
    split
    · rename_i h0
      have hd : d = [] := List.eq_nil_of_length_eq_zero h0
      subst hd
      simp
    · split
      · rfl
      · rename_i h0 hfs
        exact absurd (not_not.mp hfs) (Nat.ne_of_lt hlt)

/-- Witness for `C2_read_always_full_frame` at the three-byte input. -/
theorem C2_read_always_full_frame_witness :
    [1, 2, 3].length ≤ frame_size ∧ (OpusBufferedAudio.read (Except.ok [1, 2, 3])).length = frame_size :=
  ⟨by decide, (C2_read_always_full_frame [1, 2, 3] (by decide)).1⟩

/-- C3: the buffer never holds more than `max_frames` packets along any
execution from a fresh state, and an insertion into a full buffer drops
exactly the head of the deque — which, by the sortedness invariant, is
the buffered packet with the lowest sequence number — keeping all other
packets (the tail) unchanged, in order, ahead of the new packet. -/
theorem C3_capacity_and_eviction :
    (∀ (m : Nat) (es : List BufEvent), (runEvents (initState m) es).1.buffer.length ≤ m) ∧
    (∀ (s : OpusBufferedAudio) (pcm : List Nat) (now : Int),
      BufInv s → s.buffer.length = s.max_frames → 0 < s.max_frames →
      s.buffer ≠ [] ∧
      (add_audio s pcm now).buffer =
        s.buffer.tail ++ [{ data := pcm, sequence := s.next_sequence, timestamp := now }] ∧
      ∀ q, s.buffer.head? = some q → ∀ p ∈ s.buffer, q.sequence ≤ p.sequence) := by
  constructor
  · intro m es
    have h1 := runEvents_buffer_le es (initState m) (by simp [initState])
    rw [runEvents_max_frames] at h1
    exact h1
  · intro s pcm now hinv hlen hpos
    have hne : s.buffer ≠ [] := by
      intro hnil
      rw [hnil] at hlen
      simp at hlen
      omega
    refine ⟨hne, ?_, ?_⟩
    · show dequeAppend s.max_frames s.buffer _ = _
      exact dequeAppend_full _ hlen hpos
    · intro q hq p hp
      obtain ⟨a, t, hb⟩ : ∃ a t, s.buffer = a :: t := by
        cases hbb : s.buffer with
        | nil => exact absurd hbb hne
        | cons a t => exact ⟨a, t, rfl⟩
      rw [hb] at hq hp
      simp only [List.head?_cons, Option.some.injEq] at hq
      subst hq
      have hs := hinv.1
      rw [hb, List.map_cons, List.sorted_cons] at hs
      rcases List.mem_cons.mp hp with rfl | hpt
      · exact le_refl _
      · exact le_of_lt (hs.1 p.sequence (List.mem_map_of_mem _ hpt))

/-- Witness for `C3_capacity_and_eviction`: a one-slot buffer holding
packet 0 evicts it (the minimal buffered sequence) when packet 1 is
inserted. -/
theorem C3_capacity_and_eviction_witness :
    ((runEvents (initState 1) [BufEvent.add [9] 2]).1.buffer.length ≤ 1) ∧
    (BufInv ((runEvents (initState 1) [BufEvent.add [9] 2]).1) ∧
      ((runEvents (initState 1) [BufEvent.add [9] 2]).1).buffer.length =
        ((runEvents (initState 1) [BufEvent.add [9] 2]).1).max_frames ∧
      0 < ((runEvents (initState 1) [BufEvent.add [9] 2]).1).max_frames) ∧
    (add_audio ((runEvents (initState 1) [BufEvent.add [9] 2]).1) [7] 5).buffer =
      ((runEvents (initState 1) [BufEvent.add [9] 2]).1).buffer.tail ++
        [{ data := [7], sequence := ((runEvents (initState 1) [BufEvent.add [9] 2]).1).next_sequence, timestamp := 5 }] :=
  ⟨C3_capacity_and_eviction.1 1 [BufEvent.add [9] 2],
   ⟨by decide, by decide, by decide⟩,
   (C3_capacity_and_eviction.2 ((runEvents (initState 1) [BufEvent.add [9] 2]).1) [7] 5
      (by decide) (by decide) (by decide)).2.1⟩

/-- C4: along any execution from a fresh buffer, the sequence numbers of
the packets actually written to the transcode stage are strictly
increasing — never repeated, never decreasing — and form a subsequence
of the assigned sequence numbers `0, 1, …, countAdds − 1`. -/
theorem C4_emissions_strictly_increasing (m : Nat) (es : List BufEvent) :
    (((runEvents (initState m) es).2).map (fun p => p.sequence)).Sorted (· < ·) ∧
    (((runEvents (initState m) es).2).map (fun p => p.sequence)).Sublist
      (List.range (countAdds es)) := by
  have hinv0 : BufInv (initState m) := bufInv_initState m
  obtain ⟨hle, hmem, hsort⟩ := runEvents_emissions es hinv0
  refine ⟨hsort, sorted_lt_sublist_range _ _ hsort ?_⟩
  intro x hx
  simp only [List.mem_map] at hx
  obtain ⟨q, hq, rfl⟩ := hx
  have h1 := (hmem q hq).2
  have h2 := (bufInv_run es hinv0).2.2
  have h3 := runEvents_next_sequence es (initState m)
  have h4 : (q.sequence : Int) < ((runEvents (initState m) es).1.next_sequence : Int) :=
    lt_of_le_of_lt h1 h2
  rw [h3] at h4
  simp only [initState, Nat.zero_add] at h4
  exact_mod_cast h4

/-- C5: along any execution from a fresh buffer, the `n`-th `add_audio`
call (counting from 0) assigns sequence number `n`: assignment starts at
0 and increases by exactly 1 per call, with no gaps. -/
theorem C5_sequence_numbers_start_at_zero (m : Nat) (es : List BufEvent) :
    assignedSeqs (initState m) es = List.range (countAdds es) := by
  rw [assignedSeqs_eq_range' es (initState m), List.range_eq_range']
  rfl

/-- C6, counterexample.  The claim says the buffer mutex is never held
across a blocking call — in particular not during the pacing sleep nor
while writing to the transcode stage's input pipe.  In
`_process_buffer`, the `with self.lock:` block encloses the whole cycle
body: the pacing `time.sleep`, the `process.stdin.write`, and the flush
all execute inside the critical section. -/
theorem C6_counterexample :
    LockAction.paceSleep ∈ heldActions process_buffer_cycle_actions ∧
    LockAction.writeTranscode ∈ heldActions process_buffer_cycle_actions ∧
    LockAction.flushTranscode ∈ heldActions process_buffer_cycle_actions := by
  decide

/-- C6, amended.  The ingestion path holds the mutex only for the
packet-creation / stats-log / insert-and-evict sequence, which contains
no blocking action; the drain loop, however, holds the mutex across its
entire cycle body — scan, removal, pacing sleep, transcode write and
flush, cursor advance — and only the trailing 1 ms idle sleep runs
outside the lock. -/
theorem C6_lock_extent :
    heldActions process_buffer_cycle_actions =
      [LockAction.scanSelect, LockAction.removePacket, LockAction.paceSleep,
       LockAction.writeTranscode, LockAction.flushTranscode, LockAction.advanceCursor] ∧
    heldActions add_audio_actions =
      [LockAction.makePacket, LockAction.logStats, LockAction.appendEvict] ∧
    LockAction.idleSleep ∉ heldActions process_buffer_cycle_actions ∧
    (heldActions add_audio_actions).all (fun a => !(blockingAction a)) = true := by
  decide

/-- C7: if the voice connection never reports connected within the
timeout, `start_receiving` returns without raising and without
constructing anything: the state is unchanged, `audio_source` (the
jitter buffer, whose construction would also spawn the transcode stage)
and `_sink` stay `None`, and `is_receiving()` stays false — the failed
start is observable to the session controller exactly through that. -/
theorem C7_connection_timeout_fails_start (c : VoiceRecvClient) (connAt : Nat → Bool)
    (fuel : Nat) (listenOk : Bool) (hsink : c.sink = false)
    (hsrc : c.audio_source = none) (hto : wait_for_connection connAt fuel = false) :
    (start_receiving c connAt fuel listenOk).raised = false ∧
    (start_receiving c connAt fuel listenOk).state = c ∧
    (start_receiving c connAt fuel listenOk).state.sink = false ∧
    (start_receiving c connAt fuel listenOk).state.audio_source = none ∧
    is_receiving (start_receiving c connAt fuel listenOk).state = false := by
  have hs : start_receiving c connAt fuel listenOk = ⟨c, false⟩ := by
    simp [start_receiving, hsink, hto]
  rw [hs]
  exact ⟨rfl, rfl, hsink, hsrc, by simp [is_receiving, hsink]⟩

/-- Witness for `C7_connection_timeout_fails_start`: a disconnected
session whose connection poll reports false for all 50 polls of the 5 s
timeout. -/
theorem C7_connection_timeout_fails_start_witness :
    ({ connected := false, sink := false, audio_source := none, playing := false } : VoiceRecvClient).sink = false ∧
    ({ connected := false, sink := false, audio_source := none, playing := false } : VoiceRecvClient).audio_source = none ∧
    wait_for_connection (fun _ => false) 50 = false ∧
    is_receiving (start_receiving { connected := false, sink := false, audio_source := none, playing := false }
      (fun _ => false) 50 true).state = false :=
  ⟨rfl, rfl, by decide,
   (C7_connection_timeout_fails_start _ (fun _ => false) 50 true rfl rfl (by decide)).2.2.2.2⟩

theorem stop_receiving_state (conn pl : Bool) (src : Option OpusBufferedAudio) (tA : Bool)
    (pE : Option (Fin 4)) :
    (stop_receiving ⟨conn, true, src, pl⟩ tA pE).1 = ⟨conn, false, none, pl⟩ := by
  simp [stop_receiving]

theorem stop_receiving_trace (conn pl : Bool) (b : OpusBufferedAudio) (tA : Bool)
    (pE : Option (Fin 4)) :
    (stop_receiving ⟨conn, true, some b, pl⟩ tA pE).2 =
      [TeardownAction.stopListen] ++ (if pl then [TeardownAction.stopPlayback] else []) ++
      cleanup_actions tA pE ++ [TeardownAction.discardRefs] := by
  simp [stop_receiving]

/-- C8: stopping a receiving session flips the drain loop's running flag
first (and a cycle that observes `running = false` does nothing), joins
the drain thread with a 1 s timeout, terminates the transcode process
with a 1 s wait, and discards the sink and buffer references last; the
final state has `is_receiving() = false`, and the references are
discarded for every failure oracle — a thread that stays alive past its
join timeout or a process operation that raises (`procExcAt` marks which
of close/close/terminate/wait raised; the exception is caught). -/
theorem C8_stop_receiving_teardown (c : VoiceRecvClient) (b : OpusBufferedAudio)
    (threadAlive : Bool) (procExcAt : Option (Fin 4))
    (hsink : c.sink = true) (hsrc : c.audio_source = some b) :
    ((stop_receiving c threadAlive procExcAt).1.sink = false ∧
     (stop_receiving c threadAlive procExcAt).1.audio_source = none ∧
     is_receiving (stop_receiving c threadAlive procExcAt).1 = false) ∧
    (TeardownAction.setRunningFalse ∈ (stop_receiving c threadAlive procExcAt).2 ∧
     TeardownAction.discardRefs ∈ (stop_receiving c threadAlive procExcAt).2 ∧
     (threadAlive = true →
       TeardownAction.joinDrainThread 1000 ∈ (stop_receiving c threadAlive procExcAt).2) ∧
     (procExcAt = none →
       TeardownAction.terminateProc ∈ (stop_receiving c threadAlive procExcAt).2 ∧
       TeardownAction.waitProc 1000 ∈ (stop_receiving c threadAlive procExcAt).2)) ∧
    (OccursBefore TeardownAction.setRunningFalse (TeardownAction.joinDrainThread 1000)
        (stop_receiving c threadAlive procExcAt).2 ∧
     OccursBefore (TeardownAction.joinDrainThread 1000) TeardownAction.terminateProc
        (stop_receiving c threadAlive procExcAt).2 ∧
     OccursBefore TeardownAction.setRunningFalse TeardownAction.terminateProc
        (stop_receiving c threadAlive procExcAt).2 ∧
     OccursBefore TeardownAction.terminateProc TeardownAction.discardRefs
        (stop_receiving c threadAlive procExcAt).2 ∧
     OccursBefore TeardownAction.setRunningFalse TeardownAction.discardRefs
        (stop_receiving c threadAlive procExcAt).2) ∧
    (∀ (writeOk : Bool) (now : Int),
      process_buffer_cycle (cleanup b) writeOk now = (cleanup b, none)) := by
  obtain ⟨conn, sk, src, pl⟩ := c
  dsimp only at hsink hsrc
  subst hsink
  subst hsrc
  refine ⟨?_, ?_, ?_, ?_⟩
  · rw [stop_receiving_state]
    exact ⟨rfl, rfl, by simp [is_receiving]⟩
  · rw [stop_receiving_trace]
    revert pl threadAlive procExcAt
    decide
  · rw [stop_receiving_trace]
    revert pl threadAlive procExcAt
    decide
  · intro writeOk now
    simp [process_buffer_cycle, cleanup]

/-- Witness for `C8_stop_receiving_teardown`: a playing, connected
session with a live drain thread whose `process.wait` raises
`TimeoutExpired` (oracle index 3); teardown still completes. -/
theorem C8_stop_receiving_teardown_witness :
    ({ connected := true, sink := true, audio_source := some (initState 5), playing := true } : VoiceRecvClient).sink = true ∧
    (stop_receiving { connected := true, sink := true, audio_source := some (initState 5), playing := true } true (some 3)).1.sink = false ∧
    (stop_receiving { connected := true, sink := true, audio_source := some (initState 5), playing := true } true (some 3)).1.audio_source = none ∧
    TeardownAction.setRunningFalse ∈
      (stop_receiving { connected := true, sink := true, audio_source := some (initState 5), playing := true } true (some 3)).2 ∧
    TeardownAction.joinDrainThread 1000 ∈
      (stop_receiving { connected := true, sink := true, audio_source := some (initState 5), playing := true } true (some 3)).2 ∧
    OccursBefore TeardownAction.setRunningFalse TeardownAction.discardRefs
      (stop_receiving { connected := true, sink := true, audio_source := some (initState 5), playing := true } true (some 3)).2 ∧
    process_buffer_cycle (cleanup (initState 5)) true 0 = (cleanup (initState 5), none) :=
  ⟨rfl,
   (C8_stop_receiving_teardown { connected := true, sink := true, audio_source := some (initState 5), playing := true } (initState 5) true (some 3) rfl rfl).1.1,
   (C8_stop_receiving_teardown { connected := true, sink := true, audio_source := some (initState 5), playing := true } (initState 5) true (some 3) rfl rfl).1.2.1,
   (C8_stop_receiving_teardown { connected := true, sink := true, audio_source := some (initState 5), playing := true } (initState 5) true (some 3) rfl rfl).2.1.1,
   (C8_stop_receiving_teardown { connected := true, sink := true, audio_source := some (initState 5), playing := true } (initState 5) true (some 3) rfl rfl).2.1.2.2.1 rfl,
   (C8_stop_receiving_teardown { connected := true, sink := true, audio_source := some (initState 5), playing := true } (initState 5) true (some 3) rfl rfl).2.2.1.2.2.2.2,
   (C8_stop_receiving_teardown { connected := true, sink := true, audio_source := some (initState 5), playing := true } (initState 5) true (some 3) rfl rfl).2.2.2 true 0⟩

/-- C9: when the transcode write for the selected packet `p` fails, the
cycle has already removed `p` from the buffer but does not advance
`last_read_sequence`; the resulting state is permanently stalled — the
awaited sequence number can never re-enter the buffer because new
packets always receive strictly larger numbers — so no packet is ever
emitted by the drain loop afterwards, whatever further events occur. -/
theorem C9_failed_write_halts_emission (s : OpusBufferedAudio) (p : AudioPacket) (now : Int)
    (es : List BufEvent) (hinv : BufInv s) (hr : s.running = true)
    (hf : findNext s = some p) :
    process_buffer_cycle s false now = ({ s with buffer := s.buffer.erase p }, none) ∧
    p ∉ ({ s with buffer := s.buffer.erase p } : OpusBufferedAudio).buffer ∧
    ({ s with buffer := s.buffer.erase p } : OpusBufferedAudio).last_read_sequence =
      s.last_read_sequence ∧
    (runEvents { s with buffer := s.buffer.erase p } es).2 = [] ∧
    (runEvents { s with buffer := s.buffer.erase p } es).1.last_read_sequence =
      s.last_read_sequence := by
  obtain ⟨heq, hst, hnm⟩ := failed_write_stalled hinv hr hf now
  obtain ⟨hemp, hlast, _⟩ := stalled_runEvents es hst
  exact ⟨heq, hnm, rfl, hemp, hlast⟩

/-- Witness for `C9_failed_write_halts_emission`: one packet is
ingested, the drain cycle selects it and the write fails; thereafter a
successful-write cycle, a fresh ingestion and another cycle emit
nothing. -/
theorem C9_failed_write_halts_emission_witness :
    BufInv ((runEvents (initState 5) [BufEvent.add [3] 0]).1) ∧
    ((runEvents (initState 5) [BufEvent.add [3] 0]).1).running = true ∧
    findNext ((runEvents (initState 5) [BufEvent.add [3] 0]).1) =
      some { data := [3], sequence := 0, timestamp := 0 } ∧
    process_buffer_cycle ((runEvents (initState 5) [BufEvent.add [3] 0]).1) false 1 =
      ({ (runEvents (initState 5) [BufEvent.add [3] 0]).1 with
          buffer := ((runEvents (initState 5) [BufEvent.add [3] 0]).1).buffer.erase
            { data := [3], sequence := 0, timestamp := 0 } }, none) ∧
    (runEvents { (runEvents (initState 5) [BufEvent.add [3] 0]).1 with
        buffer := ((runEvents (initState 5) [BufEvent.add [3] 0]).1).buffer.erase
          { data := [3], sequence := 0, timestamp := 0 } }
      [BufEvent.cycle true 2, BufEvent.add [4] 3, BufEvent.cycle true 4]).2 = [] :=
  ⟨by decide, rfl, by decide,
   (C9_failed_write_halts_emission _ _ 1 [BufEvent.cycle true 2, BufEvent.add [4] 3, BufEvent.cycle true 4]
      (by decide) rfl (by decide)).1,
   (C9_failed_write_halts_emission _ _ 1 [BufEvent.cycle true 2, BufEvent.add [4] 3, BufEvent.cycle true 4]
      (by decide) rfl (by decide)).2.2.2.1⟩

/-- C10: two executions from a fresh buffer whose event lists agree on
everything except the wall-clock values (same payloads in the same
order, same drain-cycle structure and write outcomes) emit exactly the
same packets — same payloads and sequence numbers — in the same order:
ordering decisions never consult the timestamp field. -/
theorem C10_ordering_independent_of_timestamps (m : Nat) (es1 es2 : List BufEvent)
    (h : es1.map eventView = es2.map eventView) :
    ((runEvents (initState m) es1).2).map packetView =
    ((runEvents (initState m) es2).2).map packetView :=
  run_view es1 es2 rfl (bufInv_initState m) h

/-- Witness for `C10_ordering_independent_of_timestamps`: the same
ingestions and cycles under two very different wall clocks. -/
theorem C10_ordering_independent_of_timestamps_witness :
    [BufEvent.add [1] 0, BufEvent.add [2] 5, BufEvent.cycle true 7, BufEvent.cycle true 9].map eventView =
      [BufEvent.add [1] 100, BufEvent.add [2] 250, BufEvent.cycle true 999, BufEvent.cycle true 1300].map eventView ∧
    ((runEvents (initState 5)
        [BufEvent.add [1] 0, BufEvent.add [2] 5, BufEvent.cycle true 7, BufEvent.cycle true 9]).2).map packetView =
      ((runEvents (initState 5)
        [BufEvent.add [1] 100, BufEvent.add [2] 250, BufEvent.cycle true 999, BufEvent.cycle true 1300]).2).map packetView :=
  ⟨by decide,
   C10_ordering_independent_of_timestamps 5
     [BufEvent.add [1] 0, BufEvent.add [2] 5, BufEvent.cycle true 7, BufEvent.cycle true 9]
     [BufEvent.add [1] 100, BufEvent.add [2] 250, BufEvent.cycle true 999, BufEvent.cycle true 1300]
     (by decide)⟩
